import Mathlib

set_option maxRecDepth 200000

/-!
Verification of the adaptive multi-tier web-content extraction pipeline
(backend of the Universal_web_scraper repository).

The HTML documents handed to the pipeline by the external parsing
capability (BeautifulSoup) are embedded as trees of elements and text
nodes.  The segmentation engine (`backend/scraper/parsers/sections.py`),
the metadata extractors (the static block of `backend/main.py` and
`backend/scraper/playwright_scraper.py::extract_meta`), the escalation
controller and the merge engine (`backend/main.py::scrape_endpoint`) are
translated below as executable Lean functions, and the design claims are
settled as theorems about those functions.
-/

namespace Scraper

mutual
/-- A node of a parsed HTML document: an element with a tag, an attribute
list and a forest of children, or a text node.  This is the shallow
embedding of the DOM trees produced by the external HTML parsing
capability. -/
inductive HNode where
  | elem (tag : String) (attrs : List (String × String)) (children : HForest)
  | text (s : String)

/-- A forest of sibling nodes (the children of an element, or the
top-level nodes of a document). -/
inductive HForest where
  | nil
  | cons (head : HNode) (tail : HForest)
end

/-- A soup (parsed document) is its forest of top-level nodes. -/
abbrev Soup := HForest

/-- Builds a forest from a list of nodes; convenience for writing
concrete documents. -/
def HForest.ofList : List HNode → HForest
  | [] => .nil
  | n :: ns => .cons n (ofList ns)

/-- Element constructor taking the children as a list. -/
def el (tag : String) (attrs : List (String × String)) (children : List HNode) : HNode :=
  .elem tag attrs (.ofList children)

/-- The tag of an element node, `""` for a text node. -/
def HNode.tagOf : HNode → String
  | .elem t _ _ => t
  | .text _ => ""

/-- Attribute access, models BeautifulSoup `el.get(key)`: the first
binding of the key, `none` when absent or on a text node. -/
def HNode.getAttr : HNode → String → Option String
  | .elem _ attrs _, k => (attrs.find? (fun p => p.1 = k)).map (fun p => p.2)
  | .text _, _ => none

/-- Attribute access with a default, models `el.get(key, "")`. -/
def HNode.getAttrD (n : HNode) (k : String) : String :=
  (n.getAttr k).getD ""

mutual
/-- All nodes of a subtree in document (preorder) order, the node itself
first.  `find_all` filters this enumeration. -/
def HNode.allNodes : HNode → List HNode
  | .elem t a cs => .elem t a cs :: cs.allNodes
  | .text s => [.text s]

/-- All nodes of a forest in document order. -/
def HForest.allNodes : HForest → List HNode
  | .nil => []
  | .cons c cs => c.allNodes ++ cs.allNodes
end

mutual
/-- The text fragments (`.strings` in BeautifulSoup) of a subtree, in
document order. -/
def HNode.strings : HNode → List String
  | .elem _ _ cs => cs.strings
  | .text s => [s]

/-- The text fragments of a forest, in document order. -/
def HForest.strings : HForest → List String
  | .nil => []
  | .cons c cs => c.strings ++ cs.strings
end

mutual
/-- Serialized markup of a node, models Python `str(el)` on a
BeautifulSoup element. -/
def HNode.serialize : HNode → String
  | .elem t a cs =>
      "<" ++ t ++ String.join (a.map (fun p => " " ++ p.1 ++ "=\"" ++ p.2 ++ "\""))
        ++ ">" ++ cs.serialize ++ "</" ++ t ++ ">"
  | .text s => s

/-- Serialized markup of a forest. -/
def HForest.serialize : HForest → String
  | .nil => ""
  | .cons c cs => c.serialize ++ cs.serialize
end

/-- Python `str.strip()` (and the `strip=True` of `get_text`): drop
leading and trailing whitespace.  Implemented on the character list so
that it evaluates inside the kernel. -/
def sTrim (s : String) : String :=
  ⟨((s.data.dropWhile Char.isWhitespace).reverse.dropWhile Char.isWhitespace).reverse⟩

/-- Python slicing `s[:n]`. -/
def sTake (s : String) (n : Nat) : String :=
  ⟨s.data.take n⟩

/-- Python `s.lower()`. -/
def sToLower (s : String) : String :=
  ⟨s.data.map Char.toLower⟩

/-- Whether `pat` occurs as a contiguous run inside the list. -/
def listHasInfix (pat : List Char) : List Char → Bool
  | [] => pat.isEmpty
  | c :: cs => pat.isPrefixOf (c :: cs) || listHasInfix pat cs

/-- Python substring membership `pat in s`. -/
def sContains (s pat : String) : Bool :=
  listHasInfix pat.data s.data

/-- Python `s.startswith(p)`. -/
def sStartsWith (s p : String) : Bool :=
  p.data.isPrefixOf s.data

/-- `get_text(" ", strip=True)` applied to a fragment list: every text
fragment is stripped, empty fragments are dropped, the rest are joined
with a single space. -/
def getTextOfStrings (frags : List String) : String :=
  String.intercalate " " ((frags.map sTrim).filter (fun s => s ≠ ""))

/-- `el.get_text(" ", strip=True)` on one node. -/
def HNode.getText (n : HNode) : String :=
  getTextOfStrings n.strings

/-- `el.text` (BeautifulSoup property): the raw concatenation of the text
fragments, no separator, no stripping. -/
def HNode.textNoSep (n : HNode) : String :=
  String.join n.strings

/-- All nodes of the soup, in document order. -/
def soupNodes (roots : Soup) : List HNode :=
  roots.allNodes

/-- `soup.find_all(tag)`: the elements carrying the tag, in document
order. -/
def soupFindAll (roots : Soup) (tag : String) : List HNode :=
  (soupNodes roots).filter (fun n => n.tagOf = tag)

/-- `soup.find(tag)`. -/
def soupFind (roots : Soup) (tag : String) : Option HNode :=
  (soupFindAll roots tag).head?

/-- `el.find_all(tags)` on one element: descendants only, the element
itself excluded, in document order. -/
def HNode.findAllTags (n : HNode) (tags : List String) : List HNode :=
  match n with
  | .elem _ _ cs => cs.allNodes.filter (fun m => tags.contains m.tagOf)
  | .text _ => []

/-- The character list following the first occurrence of `pat`, if any. -/
def afterFirst (pat : List Char) : List Char → Option (List Char)
  | [] => if pat.isEmpty then some [] else none
  | c :: cs => if pat.isPrefixOf (c :: cs) then some ((c :: cs).drop pat.length)
               else afterFirst pat cs

/-- Scheme-and-authority of a URL (`https://host`), used to resolve
root-relative hrefs. -/
def originOf (base : String) : String :=
  match afterFirst "://".data base.data with
  | some rest =>
      (⟨base.data.take (base.data.length - (rest.length + 3))⟩ : String) ++ "://"
        ++ (⟨rest.takeWhile (fun c => c ≠ '/')⟩ : String)
  | none => base

/-- The base with its last path segment removed (everything up to and
including the final slash of the path). -/
def baseDirOf (base : String) : String :=
  let d := base.data
  let cut := (d.reverse.dropWhile (fun c => c ≠ '/')).reverse
  if cut.isEmpty then base ++ "/" else ⟨cut⟩

/-- Models `urllib.parse.urljoin` from the Python standard library (an
external capability of the code under verification) for the href shapes
this development exercises: an absolute `http(s)` href is returned
unchanged, a root-relative href is resolved against the base's scheme
and authority, and any other href replaces the last segment of the
base's path. -/
def urljoin (base href : String) : String :=
  if sStartsWith href "http://" || sStartsWith href "https://" then href
  else if sStartsWith href "/" then originOf base ++ href
  else baseDirOf base ++ href

/-- `backend/scraper/utils.py::make_absolute_url`: an empty (or missing)
href yields `""`, otherwise the href is resolved against the base. -/
def make_absolute_url (base href : String) : String :=
  if href = "" then "" else urljoin base href

/-- `backend/scraper/utils.py::truncate_html`: the first `limit`
characters plus a flag telling whether anything was cut. -/
def truncate_html (html : String) (limit : Nat) : String × Bool :=
  (sTake html limit, decide (limit < html.length))

/-- Splits a character list into its maximal whitespace-free runs. -/
def wsTokensGo (cur : List Char) : List Char → List (List Char)
  | [] => if cur.isEmpty then [] else [cur.reverse]
  | c :: cs =>
      if c.isWhitespace then
        if cur.isEmpty then wsTokensGo [] cs else cur.reverse :: wsTokensGo [] cs
      else wsTokensGo (c :: cur) cs

/-- Models `re.split(r"\s+", s)` as used on already-stripped input: the
whitespace-free runs of `s`, except that the empty string yields the
singleton `[""]` exactly as `re.split` does. -/
def pySplitWS (s : String) : List String :=
  if s = "" then [""] else (wsTokensGo [] s.data).map (fun l => (⟨l⟩ : String))

/-- `backend/scraper/utils.py::generate_label_from_text`: the first
`words` whitespace-delimited tokens of the stripped text. -/
def generate_label_from_text (text : String) (words : Nat) : String :=
  let tokens := pySplitWS (sTrim text)
  if tokens.isEmpty then "Section"
  else String.intercalate " " (tokens.take words)

/-- One extracted hyperlink. -/
structure Link where
  text : String
  href : String
  deriving Repr, DecidableEq

/-- One extracted image reference. -/
structure Image where
  src : String
  alt : String
  deriving Repr, DecidableEq

/-- `backend/scraper/parsers/links.py::extract_links`: all `a`
descendants carrying an `href` attribute, with stripped text and the
href resolved against the base URL. -/
def extract_links (node : HNode) (base_url : String) : List Link :=
  ((node.findAllTags ["a"]).filter (fun a => (a.getAttr "href").isSome)).map
    (fun a => { text := sTrim a.getText, href := make_absolute_url base_url (a.getAttrD "href") })

/-- Drops one leading quote character, if present. -/
def dropLeadQuote : List Char → List Char
  | c :: cs => if c = '\'' ∨ c = '"' then cs else c :: cs
  | [] => []

/-- Models `re.search(r'url\([\x27"]?(.*?)[\x27"]?\)', style)` of
`backend/scraper/parsers/images.py`: the text between the first `url(`
and the next `)`, with one optional surrounding quote removed on each
side; `none` when the pattern does not occur. -/
def cssUrl (style : String) : Option String :=
  match afterFirst "url(".data style.data with
  | none => none
  | some rest =>
      if rest.contains ')' then
        some ⟨(dropLeadQuote ((dropLeadQuote (rest.takeWhile (fun c => c ≠ ')')).reverse).reverse))⟩
      else none

/-- Python `a or b` on an optional string: the attribute's value when it
is present and non-empty, otherwise the fallback. -/
def orStr (a : Option String) (b : String) : String :=
  match a with
  | some s => if s ≠ "" then s else b
  | none => b

/-- `backend/scraper/parsers/images.py::extract_images`: every `img`
descendant whose source is found in `src`, a lazy-load attribute, or a
CSS `url(...)` of the inline style, in that preference order; the source
is resolved against the base URL, images without any source are
skipped. -/
def extract_images (node : HNode) (base_url : String) : List Image :=
  (node.findAllTags ["img"]).filterMap (fun img =>
    let src0 := orStr (img.getAttr "src")
      (orStr (img.getAttr "data-src") (orStr (img.getAttr "data-lazy-src") ""))
    let src := if src0 = "" then
        match cssUrl (img.getAttrD "style") with
        | some u => u
        | none => ""
      else src0
    if src = "" then none
    else some { src := make_absolute_url base_url src, alt := orStr (img.getAttr "alt") "" })

/-- `backend/scraper/parsers/lists.py::extract_lists`: the `li` texts of
every `ul`/`ol` descendant, empty item lists skipped. -/
def extract_lists (node : HNode) : List (List String) :=
  (node.findAllTags ["ul", "ol"]).filterMap (fun ul =>
    let items := (ul.findAllTags ["li"]).map HNode.getText
    if items.isEmpty then none else some items)

/-- The content block of a section.  `tables` is always empty in the
code (the placeholder list is never filled), so its element type is
never materialized. -/
structure SectionContent where
  headings : List String
  text : String
  links : List Link
  images : List Image
  lists : List (List String)
  tables : List String
  deriving Repr, DecidableEq

/-- One extracted content block, the `Section` of the data model. -/
structure Section where
  id : String
  type : String
  label : String
  sourceUrl : String
  content : SectionContent
  rawHtml : String
  truncated : Bool
  deriving Repr, DecidableEq

/-- The fixed landmark priority list of the segmentation engine. -/
def landmark_tags : List String := ["header", "nav", "main", "section", "article", "footer"]

/-- The landmark candidates: for each landmark tag in the declared
order, all elements with that tag in document order. -/
def landmarkCandidates (roots : Soup) : List HNode :=
  landmark_tags.flatMap (fun t => soupFindAll roots t)

/-- The body of the landmark loop of
`backend/scraper/parsers/sections.py::parse_sections_from_soup`,
threading the produced sections, the consumed fingerprints and the
running index. -/
def mkLandmarkSection (url : String) (eln : HNode) (idx : Nat) : Section :=
  let headings := ((eln.findAllTags ["h1", "h2", "h3"]).map HNode.getText).take 5
  let text := eln.getText
  let raw_html := eln.serialize
  let label := match headings with
    | h :: _ => h
    | [] => generate_label_from_text text 6
  let tag := eln.tagOf
  let t1 := if tag = "nav" then "nav" else "unknown"
  let t2 := if tag = "header" ∧ idx = 0 then "hero" else t1
  let t3 := if tag = "footer" then "footer" else t2
  let t4 := if tag = "main" then "section" else t3
  { id := tag ++ "-" ++ Nat.repr idx
  , type := t4
  , label := label
  , sourceUrl := url
  , content := ⟨headings, text, extract_links eln url,
                extract_images eln url, extract_lists eln, []⟩
  , rawHtml := (truncate_html raw_html 2000).1
  , truncated := (truncate_html raw_html 2000).2 }

def sectionsStep (url : String) (st : List Section × List String × Nat) (eln : HNode) :
    List Section × List String × Nat :=
  let (secs, used, idx) := st
  let raw_html := eln.serialize
  if raw_html = "" ∨ used.contains raw_html then st
  else
    let used := raw_html :: used
    if eln.getText = "" then (secs, used, idx)
    else (secs ++ [mkLandmarkSection url eln idx], used, idx + 1)

/-- The landmark pass of the segmentation engine. -/
def landmarkPass (roots : Soup) (source_url : String) : List Section :=
  ((landmarkCandidates roots).foldl (sectionsStep source_url) ([], [], 0)).1

/-- `soup.body`: the first `body` element of the document, if any. -/
def soupBody (roots : Soup) : Option HNode :=
  soupFind roots "body"

/-- The text fragments of `soup.body or soup`. -/
def bodyStrings (roots : Soup) : List String :=
  match soupBody roots with
  | some b => b.strings
  | none => roots.strings

/-- The serialized markup of `soup.body or soup`. -/
def bodyHtml (roots : Soup) : String :=
  match soupBody roots with
  | some b => b.serialize
  | none => roots.serialize

/-- `get_text(" ", strip=True)` of `soup.body or soup`. -/
def bodyText (roots : Soup) : String :=
  getTextOfStrings (bodyStrings roots)

/-- The fallback section covering the whole body (`soup.body or soup`),
as built at the end of
`backend/scraper/parsers/sections.py::parse_sections_from_soup`. -/
def bodyFallbackSection (roots : Soup) (source_url : String) : Section :=
  { id := "body-0"
  , type := "unknown"
  , label := generate_label_from_text (bodyText roots) 6
  , sourceUrl := source_url
  , content := ⟨[], bodyText roots, [], [], [], []⟩
  , rawHtml := (truncate_html (bodyHtml roots) 2000).1
  , truncated := (truncate_html (bodyHtml roots) 2000).2 }

/-- `backend/scraper/parsers/sections.py::parse_sections_from_soup`, the
segmentation engine imported by `backend/main.py`: the landmark pass,
followed (only when it produced nothing) by a single section covering
the whole body, emitted only when the body has text. -/
def parse_sections_from_soup (roots : Soup) (source_url : String) : List Section :=
  let sections := landmarkPass roots source_url
  if sections.isEmpty then
    if bodyText roots ≠ "" then [bodyFallbackSection roots source_url]
    else []
  else sections

/-- The extracted page metadata.  String fields use `""` for "missing",
the canonical URL is genuinely optional (`None` in the code). -/
structure Meta where
  title : String
  description : String
  language : String
  canonical : Option String
  deriving Repr, DecidableEq

/-- `soup.find(tag, attr=value)`: the first element with the tag whose
attribute equals the value. -/
def soupFindAttr (roots : Soup) (tag key val : String) : Option HNode :=
  ((soupNodes roots).filter (fun n => n.tagOf = tag ∧ n.getAttr key = some val)).head?

/-- Whether a node is a `link` whose (whitespace-separated, multi-valued)
`rel` attribute contains `canonical` — BeautifulSoup treats `rel` as a
list, so `find("link", rel="canonical")` matches by membership. -/
def isCanonicalLink (n : HNode) : Bool :=
  n.tagOf = "link"
    && ((wsTokensGo [] (n.getAttrD "rel").data).map (fun l => (⟨l⟩ : String))).contains "canonical"

/-- `soup.find("link", rel="canonical")`. -/
def findCanonicalLink (roots : Soup) : Option HNode :=
  ((soupNodes roots).filter (fun n => isCanonicalLink n)).head?

/-- `title_tag.text if title_tag else ""`. -/
def titleTextOf : Option HNode → String
  | some t => t.textNoSep
  | none => ""

/-- The static-tier metadata block of `backend/main.py::scrape_endpoint`
(lines 96-118): Open-Graph title preferred over the `title` element,
`name`-based description meta preferred over Open-Graph description,
language from the `html` element, canonical resolved to an absolute URL
when a non-empty href is present. -/
def staticMeta (roots : Soup) (url : String) : Meta :=
  let title_tag := soupFind roots "title"
  let og_title := soupFindAttr roots "meta" "property" "og:title"
  let meta_title :=
    match og_title with
    | some og =>
        match og.getAttr "content" with
        | some c => if c ≠ "" then c else titleTextOf title_tag
        | none => titleTextOf title_tag
    | none => titleTextOf title_tag
  let desc_tag :=
    match soupFindAttr roots "meta" "name" "description" with
    | some d => some d
    | none => soupFindAttr roots "meta" "property" "og:description"
  let description :=
    match desc_tag with
    | some d => d.getAttrD "content"
    | none => ""
  let lang :=
    match soupFind roots "html" with
    | some h => match h.getAttr "lang" with
        | some l => if l ≠ "" then l else ""
        | none => ""
    | none => ""
  let canonical :=
    match findCanonicalLink roots with
    | some c =>
        match c.getAttr "href" with
        | some h => if h ≠ "" then some (make_absolute_url url h) else none
        | none => none
    | none => none
  { title := meta_title, description := description, language := lang, canonical := canonical }

/-- `backend/scraper/playwright_scraper.py::extract_meta`, the metadata
extractor composed into the browser tiers: the `title` element's
stripped text (no Open-Graph preference), the `name`-based description
meta only (no Open-Graph fallback), the canonical href resolved whenever
the link element exists, language from the `html` element. -/
def extract_meta (roots : Soup) (url : String) : Meta :=
  let meta_title :=
    match soupFind roots "title" with
    | some t => sTrim t.textNoSep
    | none => ""
  let description :=
    match soupFindAttr roots "meta" "name" "description" with
    | some d => sTrim (d.getAttrD "content")
    | none => ""
  let canonical :=
    match findCanonicalLink roots with
    | some c => some (make_absolute_url url (c.getAttrD "href"))
    | none => none
  let lang :=
    match soupFind roots "html" with
    | some h => match h.getAttr "lang" with
        | some l => if l ≠ "" then l else ""
        | none => ""
    | none => ""
  { title := meta_title, description := description, language := lang, canonical := canonical }

/-- One entry of the diagnostic error trail. -/
structure Err where
  message : String
  phase : String
  deriving Repr, DecidableEq

/-- The dictionary a browser tier hands back to the controller.  `meta`
is `none` when the tier failed before extracting anything (the `{}` of
the exception path). -/
structure TierResult where
  sections : List Section
  meta : Option Meta
  clicks : List String
  scrolls : Nat
  pages : List String
  errors : List Err
  deriving Repr, DecidableEq

/-- Total extracted text length over a section list, the sufficiency
measure of the controller. -/
def totalTextLen (secs : List Section) : Nat :=
  (secs.map (fun s => s.content.text.length)).sum

/-- The "insufficient" guard of the controller: fewer than 300
characters of text, or no sections at all. -/
def insufficientSecs (secs : List Section) : Bool :=
  totalTextLen secs < 300 || secs.length == 0

/-- The blocking-keyword test applied to one lowercased error message. -/
def isBlockingMsg (m : String) : Bool :=
  sContains (sToLower m) "403" || sContains (sToLower m) "blocked"
    || sContains (sToLower m) "access denied"

/-- Whether any error of the list carries a blocking keyword. -/
def hasBlockingError (errs : List Err) : Bool :=
  errs.any (fun e => isBlockingMsg e.message)

/-- The light → full escalation guard of `backend/main.py` (lines
145-160): a blocking keyword in the light tier's errors, or an
insufficient light result. -/
def lightEscalates (r : TierResult) : Bool :=
  hasBlockingError r.errors || insufficientSecs r.sections

/-- The full → hard escalation guard of `backend/main.py` (line 167):
the full tier's text is still below 300 characters, or it reported any
error. -/
def fullEscalates (r : TierResult) : Bool :=
  totalTextLen r.sections < 300 || !r.errors.isEmpty

/-- The escalation tiers. -/
inductive Tier where
  | static
  | light
  | full
  | hard
  deriving Repr, DecidableEq

/-- The sequence of tiers the controller runs, as a function of the
static sections and of the results the light and full tiers would
deliver. -/
def tiersRun (staticSections : List Section) (lightR fullR : TierResult) : List Tier :=
  if insufficientSecs staticSections then
    Tier.static :: Tier.light ::
      (if lightEscalates lightR then
        Tier.full :: (if fullEscalates fullR then [Tier.hard] else [])
      else [])
  else [Tier.static]

/-- The JS result the controller ends up holding after escalation: the
last tier it ran. -/
def chosenJsResult (lightR fullR hardR : TierResult) : TierResult :=
  if lightEscalates lightR then
    (if fullEscalates fullR then hardR else fullR)
  else lightR

/-- Python truthiness of a meta field value. -/
def optTruthy : Option String → Bool
  | some s => s ≠ ""
  | none => false

/-- The per-field metadata merge (`if v and not result["meta"].get(k)`):
adopt the incoming value only when it is non-empty and the accumulated
value is empty. -/
def fillStr (acc new : String) : String :=
  if new ≠ "" ∧ acc = "" then new else acc

/-- The per-field metadata merge for the optional canonical field. -/
def fillOpt (acc new : Option String) : Option String :=
  if optTruthy new && !optTruthy acc then new else acc

/-- The metadata merge of `backend/main.py` (lines 183-186); an absent
incoming dictionary (`{}`) changes nothing. -/
def mergeMeta (acc : Meta) (jsm : Option Meta) : Meta :=
  match jsm with
  | none => acc
  | some m =>
      { title := fillStr acc.title m.title
      , description := fillStr acc.description m.description
      , language := fillStr acc.language m.language
      , canonical := fillOpt acc.canonical m.canonical }

/-- The deduplication fingerprint: the first 200 characters of a
section's `rawHtml`. -/
def fingerprint (s : Section) : String :=
  sTake s.rawHtml 200

/-- One step of the section merge loop: append the candidate unless its
fingerprint was already seen, recording the fingerprint. -/
def mergeSecStep (st : List Section × List String) (sec : Section) : List Section × List String :=
  let fp := fingerprint sec
  if st.2.contains fp then st else (st.1 ++ [sec], fp :: st.2)

/-- The section merge of `backend/main.py` (lines 188-194): the seen-set
starts from the accumulated sections' fingerprints, unseen incoming
sections are appended in arrival order. -/
def mergeSections (acc inc : List Section) : List Section :=
  (inc.foldl mergeSecStep (acc, acc.map fingerprint)).1

/-- The page-list merge of `backend/main.py` (lines 200-202): append
each incoming page not already present. -/
def mergePages (acc inc : List String) : List String :=
  inc.foldl (fun cur p => if cur.contains p then cur else cur ++ [p]) acc

/-- The `ExtractionResult` assembled by the endpoint. -/
structure ScrapeResult where
  url : String
  meta : Meta
  sections : List Section
  clicks : List String
  scrolls : Nat
  pages : List String
  errors : List Err
  deriving Repr, DecidableEq

/-- The merge engine (`backend/main.py` lines 180-206): field-wise
metadata fill, fingerprint-deduplicated section append, interaction
concatenation, page union, error concatenation. -/
def mergeResult (r : ScrapeResult) (js : TierResult) : ScrapeResult :=
  { r with
      meta := mergeMeta r.meta js.meta
    , sections := mergeSections r.sections js.sections
    , clicks := r.clicks ++ js.clicks
    , scrolls := r.scrolls + js.scrolls
    , pages := mergePages r.pages js.pages
    , errors := r.errors ++ js.errors }

/-- The manufactured placeholder section of `backend/main.py` (lines
215-224). -/
def placeholderSection (url : String) : Section :=
  { id := "page-0"
  , type := "unknown"
  , label := "Page content"
  , sourceUrl := url
  , content := ⟨[], "", [], [], [], []⟩
  , rawHtml := ""
  , truncated := true }

/-- The error appended alongside the placeholder section. -/
def fallbackErr : Err :=
  ⟨"No readable content found in static or JS mode", "fallback"⟩

/-- The minimum-output step of `backend/main.py` (lines 215-225): when
the result still has no sections, append the placeholder section and one
`fallback`-phase error. -/
def ensureSections (r : ScrapeResult) (url : String) : ScrapeResult :=
  if r.sections.isEmpty then
    { r with sections := [placeholderSection url], errors := r.errors ++ [fallbackErr] }
  else r

/-- `backend/main.py::scrape_endpoint` after URL validation, as a
function of the static fetch outcome (exception message and emptiness of
the body), the parsed static document, and the results the three browser
tiers would deliver (the tiers themselves are the external headless
browser capability): static parse, conditional escalation, merge of the
chosen tier result, and the placeholder fallback. -/
def scrapeModel (url : String) (fetchFailure : Option String) (bodyEmpty : Bool)
    (staticDoc : Soup) (lightR fullR hardR : TierResult) : ScrapeResult :=
  let fetchErrs :=
    (match fetchFailure with
     | some m => [(⟨"Static fetch failed: " ++ m, "fetch"⟩ : Err)]
     | none => ([] : List Err))
    ++ (if bodyEmpty then [(⟨"Static fetch returned empty body", "fetch"⟩ : Err)] else [])
  let r0 : ScrapeResult :=
    { url := url
    , meta := staticMeta staticDoc url
    , sections := parse_sections_from_soup staticDoc url
    , clicks := []
    , scrolls := 0
    , pages := [url]
    , errors := fetchErrs }
  let r1 :=
    if insufficientSecs r0.sections then mergeResult r0 (chosenJsResult lightR fullR hardR)
    else r0
  ensureSections r1 url

/-- The invariant of the landmark loop that underlies id uniqueness:
the running index equals the number of sections produced so far, and the
`k`-th produced section's id is some landmark tag followed by `"-"` and
the decimal rendering of `k`. -/
def IdInv (st : List Section × List String × Nat) : Prop :=
  st.2.2 = st.1.length ∧
  ∀ k (hk : k < st.1.length), ∃ t ∈ landmark_tags,
    (st.1.get ⟨k, hk⟩).id = t ++ "-" ++ Nat.repr k

/-- A browser-tier result that delivered nothing at all (also the shape
of the exception-path result). -/
def emptyTR : TierResult :=
  { sections := [], meta := none, clicks := [], scrolls := 0, pages := [], errors := [] }

/-- 400 characters of body text for the static-sufficiency scenario. -/
def c9text : String := ⟨List.replicate 400 'a'⟩

/-- The scenario document: a `nav`, a `main` with an `h1` and 400
characters of text, and a `footer`. -/
def c9doc : Soup := .ofList [el "html" [] [el "body" [] [
  el "nav" [] [.text "Home About Contact"],
  el "main" [] [el "h1" [] [.text "Main Title"], .text c9text],
  el "footer" [] [.text "Copyright 2024 Example Corp"]]]]

/-- A document with no landmark elements whose only heading sits in a
`div` next to text that lives outside that `div`. -/
def c2doc : Soup := .ofList [el "html" [] [el "body" [] [
  el "div" [] [el "h1" [] [.text "Heading"], .text "inner"],
  .text "outside"]]]

/-- A document carrying both Open-Graph and plain metadata, to separate
the two metadata extractors. -/
def c4doc : Soup := .ofList [el "html" [("lang", "en")] [
  el "head" [] [
    el "title" [] [.text "Doc Title"],
    el "meta" [("property", "og:title"), ("content", "OG Title")] [],
    el "meta" [("property", "og:description"), ("content", "OG Desc")] [],
    el "link" [("rel", "canonical"), ("href", "https://cex.example/page")] []],
  el "body" [] []]]

/-- A short static page: one `nav` landmark, well below the sufficiency
threshold. -/
def c3docA : Soup := .ofList [el "html" [] [el "body" [] [
  el "nav" [] [.text "static menu"]]]]

/-- The same page as the hard browser tier would render it: one `nav`
landmark with different markup. -/
def c3docB : Soup := .ofList [el "html" [] [el "body" [] [
  el "nav" [] [.text "rendered menu"]]]]

/-- The hard-tier result for the duplicate-id run: the sections the
segmentation engine extracts from the rendered document. -/
def c3hardTR : TierResult :=
  { sections := parse_sections_from_soup c3docB "https://cex.example/"
  , meta := some (extract_meta c3docB "https://cex.example/")
  , clicks := [], scrolls := 8, pages := ["https://cex.example/"], errors := [] }

/-- An empty document (static fetch yielded nothing). -/
def emptyDoc : Soup := .ofList [el "html" [] [el "body" [] []]]

/-- Sample sections for the merge witnesses. -/
def secW1 : Section :=
  { id := "nav-0", type := "nav", label := "A", sourceUrl := "u"
  , content := ⟨[], "alpha", [], [], [], []⟩, rawHtml := "<nav>alpha</nav>", truncated := false }

/-- A second sample section with distinct markup. -/
def secW2 : Section :=
  { id := "main-1", type := "section", label := "B", sourceUrl := "u"
  , content := ⟨[], "beta", [], [], [], []⟩, rawHtml := "<main>beta</main>", truncated := false }

/-! ### Decimal representation: supporting lemmas

The landmark section ids are `f"{tag}-{idx}"`; their pairwise
distinctness rests on the injectivity of the decimal rendering of the
running index. -/

theorem toDigitsCore_acc (b : Nat) (hb : 1 < b) :
    ∀ f n acc, n < f →
      Nat.toDigitsCore b f n acc = Nat.toDigitsCore b f n [] ++ acc := by
  intro f
  induction f with
  | zero => intro n acc h; omega
  | succ f ih =>
    intro n acc h
    simp only [Nat.toDigitsCore]
    by_cases h0 : n / b = 0
    · simp [h0]
    · simp only [h0, if_false]
      have hnpos : 0 < n := by
        rcases Nat.eq_zero_or_pos n with rfl | hp
        · simp [Nat.zero_div] at h0
        · exact hp
      have hdiv : n / b < f := by
        have h1 : n / b < n := Nat.div_lt_self hnpos hb
        omega
      rw [ih (n / b) (Nat.digitChar (n % b) :: acc) hdiv,
          ih (n / b) [Nat.digitChar (n % b)] hdiv]
      simp

theorem toDigitsCore_fuel (b : Nat) (hb : 1 < b) :
    ∀ n f g, n < f → n < g →
      Nat.toDigitsCore b f n [] = Nat.toDigitsCore b g n [] := by
  intro n
  induction n using Nat.strong_induction_on with
  | _ n ih =>
    intro f g hf hg
    match f, g with
    | f + 1, g + 1 =>
      simp only [Nat.toDigitsCore]
      by_cases h0 : n / b = 0
      · simp [h0]
      · simp only [h0, if_false]
        have hnpos : 0 < n := by
          rcases Nat.eq_zero_or_pos n with rfl | hp
          · simp [Nat.zero_div] at h0
          · exact hp
        have h1 : n / b < n := Nat.div_lt_self hnpos hb
        rw [toDigitsCore_acc b hb f (n / b) _ (by omega),
            toDigitsCore_acc b hb g (n / b) _ (by omega),
            ih (n / b) h1 f g (by omega) (by omega)]

theorem toDigits_lt (b n : Nat) (h : n < b) :
    Nat.toDigits b n = [Nat.digitChar n] := by
  simp only [Nat.toDigits, Nat.toDigitsCore]
  have h0 : n / b = 0 := Nat.div_eq_of_lt h
  simp [h0, Nat.mod_eq_of_lt h]

theorem toDigits_ge (b n : Nat) (hb : 1 < b) (h : b ≤ n) :
    Nat.toDigits b n = Nat.toDigits b (n / b) ++ [Nat.digitChar (n % b)] := by
  have hnpos : 0 < n := by omega
  have h0 : n / b ≠ 0 := by
    have := Nat.one_le_div_iff (by omega : 0 < b) |>.mpr h
    omega
  have h1 : n / b < n := Nat.div_lt_self hnpos hb
  conv_lhs => rw [Nat.toDigits]
  simp only [Nat.toDigitsCore, h0, if_false]
  rw [toDigitsCore_acc b hb n (n / b) _ (by omega),
      toDigitsCore_fuel b hb (n / b) n (n / b + 1) (by omega) (by omega)]
  rfl

theorem toDigits_ne_nil (n : Nat) : Nat.toDigits 10 n ≠ [] := by
  by_cases h : n < 10
  · rw [toDigits_lt 10 n h]; simp
  · rw [toDigits_ge 10 n (by omega) (by omega)]; simp

theorem digitChar_inj_lt (a c : Nat) (ha : a < 10) (hc : c < 10)
    (h : Nat.digitChar a = Nat.digitChar c) : a = c := by
  interval_cases a <;> interval_cases c <;> first | rfl | (exfalso; exact absurd h (by decide))

theorem toDigits_inj : ∀ n m : Nat, Nat.toDigits 10 n = Nat.toDigits 10 m → n = m := by
  intro n
  induction n using Nat.strong_induction_on with
  | _ n ih =>
    intro m h
    by_cases hn : n < 10 <;> by_cases hm : m < 10
    · rw [toDigits_lt 10 n hn, toDigits_lt 10 m hm] at h
      exact digitChar_inj_lt n m hn hm (List.singleton_injective h)
    · rw [toDigits_lt 10 n hn,
          toDigits_ge 10 m (by omega) (by omega)] at h
      have hnil : Nat.toDigits 10 (m / 10) = [] := by
        have hlen := congrArg List.length h
        simp only [List.length_append, List.length_singleton, List.length_cons,
          List.length_nil] at hlen
        exact List.eq_nil_of_length_eq_zero (by omega)
      exact absurd hnil (toDigits_ne_nil _)
    · rw [toDigits_ge 10 n (by omega) (by omega),
          toDigits_lt 10 m hm] at h
      have hnil : Nat.toDigits 10 (n / 10) = [] := by
        have hlen := congrArg List.length h
        simp only [List.length_append, List.length_singleton, List.length_cons,
          List.length_nil] at hlen
        exact List.eq_nil_of_length_eq_zero (by omega)
      exact absurd hnil (toDigits_ne_nil _)
    · rw [toDigits_ge 10 n (by omega) (by omega),
          toDigits_ge 10 m (by omega) (by omega)] at h
      obtain ⟨h1, h2⟩ := List.append_inj' h (by simp)
      have hdiv : n / 10 = m / 10 :=
        ih (n / 10) (Nat.div_lt_self (by omega) (by omega)) (m / 10) h1
      have hmod : n % 10 = m % 10 :=
        digitChar_inj_lt _ _ (Nat.mod_lt n (by omega)) (Nat.mod_lt m (by omega))
          (List.singleton_injective h2)
      omega

theorem dash_not_mem_toDigits : ∀ n : Nat, '-' ∉ Nat.toDigits 10 n := by
  intro n
  induction n using Nat.strong_induction_on with
  | _ n ih =>
    have hdig : ∀ a < 10, Nat.digitChar a ≠ '-' := by decide
    by_cases hn : n < 10
    · rw [toDigits_lt 10 n hn]
      simp only [List.mem_singleton]
      exact fun hc => hdig n hn hc.symm
    · rw [toDigits_ge 10 n (by omega) (by omega)]
      simp only [List.mem_append, List.mem_singleton]
      rintro (hc | hc)
      · exact ih (n / 10) (Nat.div_lt_self (by omega) (by omega)) hc
      · exact hdig _ (Nat.mod_lt n (by omega)) hc.symm

theorem nat_repr_data (n : Nat) : (Nat.repr n).data = Nat.toDigits 10 n := rfl

theorem append_cons_inj {α : Type} {c : α} :
    ∀ (xs : List α) (ys as bs : List α), c ∉ xs → c ∉ ys →
      xs ++ c :: as = ys ++ c :: bs → xs = ys ∧ as = bs := by
  intro xs
  induction xs with
  | nil =>
    intro ys as bs _ hy h
    cases ys with
    | nil => simpa using h
    | cons y ys =>
      simp only [List.nil_append, List.cons_append, List.cons.injEq] at h
      have hmem : c ∈ y :: ys := by rw [← h.1]; exact List.mem_cons_self c ys
      exact absurd hmem hy
  | cons x xs ih =>
    intro ys as bs hx hy h
    cases ys with
    | nil =>
      simp only [List.cons_append, List.nil_append, List.cons.injEq] at h
      have hmem : c ∈ x :: xs := by rw [h.1]; exact List.mem_cons_self c xs
      exact absurd hmem hx
    | cons y ys =>
      simp only [List.cons_append, List.cons.injEq] at h
      obtain ⟨rfl, h2⟩ := h
      have := ih ys as bs (fun hc => hx (List.mem_cons_of_mem _ hc))
        (fun hc => hy (List.mem_cons_of_mem _ hc)) h2
      exact ⟨by rw [this.1], this.2⟩

/-- Injectivity of the id scheme `tag ++ "-" ++ repr idx` in the index,
for dash-free tags. -/
theorem tagId_inj (t1 t2 : String) (i j : Nat)
    (h1 : '-' ∉ t1.data) (h2 : '-' ∉ t2.data)
    (h : t1 ++ "-" ++ Nat.repr i = t2 ++ "-" ++ Nat.repr j) : i = j := by
  have hd' : t1.data ++ '-' :: (Nat.repr i).data = t2.data ++ '-' :: (Nat.repr j).data := by
    have hd := congrArg String.data h
    simpa [String.data_append] using hd
  have := append_cons_inj t1.data t2.data _ _ h1 h2 hd'
  have hrepr : Nat.toDigits 10 i = Nat.toDigits 10 j := by
    rw [← nat_repr_data, ← nat_repr_data]; exact this.2
  exact toDigits_inj i j hrepr

/-! ### Tree lemmas -/

/-- Text fragments of a descendant node are text fragments of the node. -/
theorem strings_sub_node :
    ∀ n : HNode, ∀ m ∈ n.allNodes, ∀ s ∈ m.strings, s ∈ n.strings :=
  HNode.rec
    (motive_1 := fun n => ∀ m ∈ n.allNodes, ∀ s ∈ m.strings, s ∈ n.strings)
    (motive_2 := fun f => ∀ m ∈ f.allNodes, ∀ s ∈ m.strings, s ∈ f.strings)
    (fun t a cs ih => by
      intro m hm s hs
      simp only [HNode.allNodes, List.mem_cons] at hm
      rcases hm with rfl | hm
      · exact hs
      · simpa [HNode.strings] using ih m hm s hs)
    (fun str => by
      intro m hm s hs
      simp only [HNode.allNodes, List.mem_singleton] at hm
      subst hm
      exact hs)
    (by intro m hm; simp [HForest.allNodes] at hm)
    (fun c f ihc ihf => by
      intro m hm s hs
      simp only [HForest.allNodes, List.mem_append] at hm
      simp only [HForest.strings, List.mem_append]
      rcases hm with hm | hm
      · exact Or.inl (ihc m hm s hs)
      · exact Or.inr (ihf m hm s hs))

/-- Text fragments of a node of the soup are text fragments of the
soup. -/
theorem strings_sub_forest :
    ∀ f : HForest, ∀ m ∈ f.allNodes, ∀ s ∈ m.strings, s ∈ f.strings :=
  HForest.rec
    (motive_1 := fun n => ∀ m ∈ n.allNodes, ∀ s ∈ m.strings, s ∈ n.strings)
    (motive_2 := fun f => ∀ m ∈ f.allNodes, ∀ s ∈ m.strings, s ∈ f.strings)
    (fun t a cs ih => by
      intro m hm s hs
      simp only [HNode.allNodes, List.mem_cons] at hm
      rcases hm with rfl | hm
      · exact hs
      · simpa [HNode.strings] using ih m hm s hs)
    (fun str => by
      intro m hm s hs
      simp only [HNode.allNodes, List.mem_singleton] at hm
      subst hm
      exact hs)
    (by intro m hm; simp [HForest.allNodes] at hm)
    (fun c f ihc ihf => by
      intro m hm s hs
      simp only [HForest.allNodes, List.mem_append] at hm
      simp only [HForest.strings, List.mem_append]
      rcases hm with hm | hm
      · exact Or.inl (ihc m hm s hs)
      · exact Or.inr (ihf m hm s hs))

/-- A fragment list all of whose members strip to `""` joins to `""`. -/
theorem getTextOfStrings_eq_empty (frags : List String)
    (h : ∀ s ∈ frags, sTrim s = "") : getTextOfStrings frags = "" := by
  unfold getTextOfStrings
  have hfil : (frags.map sTrim).filter (fun s => s ≠ "") = [] := by
    apply List.filter_eq_nil_iff.mpr
    intro a ha
    simp only [List.mem_map] at ha
    obtain ⟨b, hb, rfl⟩ := ha
    simp [h b hb]
  rw [hfil]
  rfl

/-! ### Merge-engine lemmas -/

theorem mem_of_containsStr {l : List String} {a : String} (h : l.contains a = true) : a ∈ l :=
  List.elem_iff.mp h

theorem containsStr_of_mem {l : List String} {a : String} (h : a ∈ l) : l.contains a = true :=
  List.elem_iff.mpr h

theorem mergeSecFold_append :
    ∀ (inc : List Section) (cur : List Section) (seen : List String),
      ∃ t, (inc.foldl mergeSecStep (cur, seen)).1 = cur ++ t ∧ t.Sublist inc := by
  intro inc
  induction inc with
  | nil => intro cur seen; exact ⟨[], by simp, List.nil_sublist _⟩
  | cons sec tl ih =>
    intro cur seen
    simp only [List.foldl_cons]
    by_cases hfp : fingerprint sec ∈ seen
    · have hstep : mergeSecStep (cur, seen) sec = (cur, seen) := by
        simp [mergeSecStep, hfp]
      rw [hstep]
      obtain ⟨t, h1, h2⟩ := ih cur seen
      exact ⟨t, h1, h2.cons sec⟩
    · have hstep : mergeSecStep (cur, seen) sec = (cur ++ [sec], fingerprint sec :: seen) := by
        simp [mergeSecStep, hfp]
      rw [hstep]
      obtain ⟨t, h1, h2⟩ := ih (cur ++ [sec]) (fingerprint sec :: seen)
      exact ⟨sec :: t, by rw [h1, List.append_assoc]; rfl, h2.cons₂ sec⟩

theorem mergeSecFold_seen_mono :
    ∀ (inc : List Section) (cur : List Section) (seen : List String),
      seen ⊆ (inc.foldl mergeSecStep (cur, seen)).2 := by
  intro inc
  induction inc with
  | nil => intro cur seen; simp
  | cons sec tl ih =>
    intro cur seen
    simp only [List.foldl_cons]
    by_cases hfp : fingerprint sec ∈ seen
    · have hstep : mergeSecStep (cur, seen) sec = (cur, seen) := by
        simp [mergeSecStep, hfp]
      rw [hstep]; exact ih cur seen
    · have hstep : mergeSecStep (cur, seen) sec = (cur ++ [sec], fingerprint sec :: seen) := by
        simp [mergeSecStep, hfp]
      rw [hstep]
      exact fun x hx => ih (cur ++ [sec]) (fingerprint sec :: seen) (List.mem_cons_of_mem _ hx)

theorem mergeSecFold_fp_mem :
    ∀ (inc : List Section) (cur : List Section) (seen : List String),
      ∀ sec ∈ inc, fingerprint sec ∈ (inc.foldl mergeSecStep (cur, seen)).2 := by
  intro inc
  induction inc with
  | nil => intro cur seen sec h; simp at h
  | cons hd tl ih =>
    intro cur seen sec hmem
    simp only [List.foldl_cons]
    rcases List.mem_cons.mp hmem with rfl | hmem
    · by_cases hfp : fingerprint sec ∈ seen
      · have hstep : mergeSecStep (cur, seen) sec = (cur, seen) := by
          simp [mergeSecStep, hfp]
        rw [hstep]
        exact mergeSecFold_seen_mono tl cur seen hfp
      · have hstep : mergeSecStep (cur, seen) sec = (cur ++ [sec], fingerprint sec :: seen) := by
          simp [mergeSecStep, hfp]
        rw [hstep]
        exact mergeSecFold_seen_mono tl _ _ (List.mem_cons_self _ _)
    · exact ih _ _ sec hmem

theorem mergeSecFold_seen_sub :
    ∀ (inc : List Section) (cur : List Section) (seen : List String),
      seen ⊆ cur.map fingerprint →
      (inc.foldl mergeSecStep (cur, seen)).2 ⊆
        ((inc.foldl mergeSecStep (cur, seen)).1).map fingerprint := by
  intro inc
  induction inc with
  | nil => intro cur seen h; simpa using h
  | cons sec tl ih =>
    intro cur seen hsub
    simp only [List.foldl_cons]
    by_cases hfp : fingerprint sec ∈ seen
    · have hstep : mergeSecStep (cur, seen) sec = (cur, seen) := by
        simp [mergeSecStep, hfp]
      rw [hstep]; exact ih cur seen hsub
    · have hstep : mergeSecStep (cur, seen) sec = (cur ++ [sec], fingerprint sec :: seen) := by
        simp [mergeSecStep, hfp]
      rw [hstep]
      apply ih
      intro x hx
      rcases List.mem_cons.mp hx with rfl | hx
      · simp
      · simp only [List.map_append, List.mem_append]
        exact Or.inl (hsub hx)

theorem mergeSecFold_noop :
    ∀ (inc : List Section) (cur : List Section) (seen : List String),
      (∀ sec ∈ inc, fingerprint sec ∈ seen) →
      inc.foldl mergeSecStep (cur, seen) = (cur, seen) := by
  intro inc
  induction inc with
  | nil => intro cur seen _; rfl
  | cons sec tl ih =>
    intro cur seen h
    simp only [List.foldl_cons]
    have hm : fingerprint sec ∈ seen := h sec (List.mem_cons_self _ _)
    have hstep : mergeSecStep (cur, seen) sec = (cur, seen) := by
      simp [mergeSecStep, hm]
    rw [hstep]
    exact ih cur seen (fun s hs => h s (List.mem_cons_of_mem _ hs))

theorem mergeMeta_keeps (acc : Meta) (m : Option Meta) :
    (acc.title ≠ "" → (mergeMeta acc m).title = acc.title)
    ∧ (acc.description ≠ "" → (mergeMeta acc m).description = acc.description)
    ∧ (acc.language ≠ "" → (mergeMeta acc m).language = acc.language)
    ∧ (optTruthy acc.canonical = true → (mergeMeta acc m).canonical = acc.canonical) := by
  cases m with
  | none => exact ⟨fun _ => rfl, fun _ => rfl, fun _ => rfl, fun _ => rfl⟩
  | some mm =>
    refine ⟨fun h => ?_, fun h => ?_, fun h => ?_, fun h => ?_⟩ <;>
      simp [mergeMeta, fillStr, fillOpt, h]

theorem mergePages_nodup_step :
    ∀ (inc acc : List String), acc.Nodup → (mergePages acc inc).Nodup := by
  intro inc
  induction inc with
  | nil => intro acc h; exact h
  | cons p tl ih =>
    intro acc hnd
    simp only [mergePages, List.foldl_cons]
    by_cases hc : acc.contains p
    · simp only [hc, if_true]
      exact ih acc hnd
    · simp only [hc, if_false]
      apply ih
      refine List.Nodup.append hnd (List.nodup_singleton p) ?_
      intro x hx hx1
      rw [List.mem_singleton] at hx1
      subst hx1
      exact hc (containsStr_of_mem hx)

theorem mergePages_prefix :
    ∀ (inc acc : List String), acc <+: mergePages acc inc := by
  intro inc
  induction inc with
  | nil => intro acc; exact List.prefix_refl acc
  | cons p tl ih =>
    intro acc
    simp only [mergePages, List.foldl_cons]
    by_cases hc : acc.contains p
    · simp only [hc, if_true]; exact ih acc
    · simp only [hc, if_false]
      exact List.IsPrefix.trans ⟨[p], rfl⟩ (ih (acc ++ [p]))

theorem mergePages_mem_of :
    ∀ (inc acc : List String), ∀ x ∈ mergePages acc inc, x ∈ acc ∨ x ∈ inc := by
  intro inc
  induction inc with
  | nil => intro acc x hx; exact Or.inl hx
  | cons p tl ih =>
    intro acc x hx
    simp only [mergePages, List.foldl_cons] at hx
    by_cases hc : acc.contains p
    · simp only [hc, if_true] at hx
      rcases ih acc x hx with h | h
      · exact Or.inl h
      · exact Or.inr (List.mem_cons_of_mem _ h)
    · simp only [hc, if_false] at hx
      rcases ih (acc ++ [p]) x hx with h | h
      · rcases List.mem_append.mp h with h | h
        · exact Or.inl h
        · rw [List.mem_singleton] at h; exact Or.inr (h ▸ List.mem_cons_self _ _)
      · exact Or.inr (List.mem_cons_of_mem _ h)

/-- C6.  For every meta field and every merge step, the incoming value is
adopted exactly when it is non-empty (truthy) and the accumulated value
is empty; and once a field is non-empty no sequence of later merge steps
changes it.  (`Scraper.meta_fill_once`) -/
theorem meta_fill_once (acc new : Meta) :
    ((mergeMeta acc (some new)).title
        = if new.title ≠ "" ∧ acc.title = "" then new.title else acc.title)
    ∧ ((mergeMeta acc (some new)).description
        = if new.description ≠ "" ∧ acc.description = "" then new.description
          else acc.description)
    ∧ ((mergeMeta acc (some new)).language
        = if new.language ≠ "" ∧ acc.language = "" then new.language else acc.language)
    ∧ ((mergeMeta acc (some new)).canonical
        = if optTruthy new.canonical && !optTruthy acc.canonical then new.canonical
          else acc.canonical)
    ∧ (mergeMeta acc none = acc)
    ∧ (∀ ms : List (Option Meta), acc.title ≠ "" →
        (ms.foldl mergeMeta acc).title = acc.title)
    ∧ (∀ ms : List (Option Meta), acc.description ≠ "" →
        (ms.foldl mergeMeta acc).description = acc.description)
    ∧ (∀ ms : List (Option Meta), acc.language ≠ "" →
        (ms.foldl mergeMeta acc).language = acc.language)
    ∧ (∀ ms : List (Option Meta), optTruthy acc.canonical = true →
        (ms.foldl mergeMeta acc).canonical = acc.canonical) := by
  refine ⟨rfl, rfl, rfl, rfl, rfl, ?_, ?_, ?_, ?_⟩
  · intro ms
    induction ms generalizing acc with
    | nil => intro _; rfl
    | cons m tl ih =>
      intro h
      simp only [List.foldl_cons]
      rw [ih _ (by rw [(mergeMeta_keeps acc m).1 h]; exact h),
          (mergeMeta_keeps acc m).1 h]
  · intro ms
    induction ms generalizing acc with
    | nil => intro _; rfl
    | cons m tl ih =>
      intro h
      simp only [List.foldl_cons]
      rw [ih _ (by rw [(mergeMeta_keeps acc m).2.1 h]; exact h),
          (mergeMeta_keeps acc m).2.1 h]
  · intro ms
    induction ms generalizing acc with
    | nil => intro _; rfl
    | cons m tl ih =>
      intro h
      simp only [List.foldl_cons]
      rw [ih _ (by rw [(mergeMeta_keeps acc m).2.2.1 h]; exact h),
          (mergeMeta_keeps acc m).2.2.1 h]
  · intro ms
    induction ms generalizing acc with
    | nil => intro _; rfl
    | cons m tl ih =>
      intro h
      simp only [List.foldl_cons]
      rw [ih _ (by rw [(mergeMeta_keeps acc m).2.2.2 h]; exact h),
          (mergeMeta_keeps acc m).2.2.2 h]

/-- Witness for C6 at concrete metadata values. -/
theorem meta_fill_once_witness :
    ((mergeMeta ⟨"kept", "", "", none⟩ (some ⟨"new", "d", "", some "c"⟩)).title = "kept")
    ∧ ((mergeMeta ⟨"kept", "", "", none⟩ (some ⟨"new", "d", "", some "c"⟩)).description = "d")
    ∧ (([some ⟨"x", "y", "z", some "w"⟩].foldl mergeMeta ⟨"kept", "", "", none⟩).title = "kept") := by
  have h := meta_fill_once ⟨"kept", "", "", none⟩ ⟨"new", "d", "", some "c"⟩
  refine ⟨?_, ?_, ?_⟩
  · rw [h.1]; decide
  · rw [h.2.1]; decide
  · exact h.2.2.2.2.2.1 [some ⟨"x", "y", "z", some "w"⟩] (by decide)

/-- C7.  Section merging is idempotent: merging the same tier result
twice equals merging it once, and a merge appends exactly a subsequence
of the incoming sections (the unseen ones, in arrival order) after the
accumulated ones.  (`Scraper.merge_sections_idempotent`) -/
theorem merge_sections_idempotent (acc inc : List Section) :
    mergeSections (mergeSections acc inc) inc = mergeSections acc inc
    ∧ ∃ t, mergeSections acc inc = acc ++ t ∧ t.Sublist inc := by
  constructor
  · have hmem : ∀ sec ∈ inc,
        fingerprint sec ∈ (mergeSections acc inc).map fingerprint := by
      intro sec hs
      apply mergeSecFold_seen_sub inc acc (acc.map fingerprint) (fun x hx => hx)
      exact mergeSecFold_fp_mem inc acc (acc.map fingerprint) sec hs
    have hno := mergeSecFold_noop inc (mergeSections acc inc)
      ((mergeSections acc inc).map fingerprint) hmem
    show (inc.foldl mergeSecStep
      (mergeSections acc inc, (mergeSections acc inc).map fingerprint)).1
        = mergeSections acc inc
    rw [hno]
  · exact mergeSecFold_append inc acc (acc.map fingerprint)

/-- Witness for C7 at concrete section lists. -/
theorem merge_sections_idempotent_witness :
    mergeSections (mergeSections [secW1] [secW1, secW2]) [secW1, secW2]
      = mergeSections [secW1] [secW1, secW2]
    ∧ mergeSections [secW1] [secW1, secW2] = [secW1, secW2] :=
  ⟨(merge_sections_idempotent [secW1] [secW1, secW2]).1, by decide⟩

theorem ensureSections_pages (r : ScrapeResult) (url : String) :
    (ensureSections r url).pages = r.pages := by
  unfold ensureSections; split <;> rfl

theorem ensureSections_meta (r : ScrapeResult) (url : String) :
    (ensureSections r url).meta = r.meta := by
  unfold ensureSections; split <;> rfl

theorem ensureSections_ne_nil (r : ScrapeResult) (url : String) :
    (ensureSections r url).sections ≠ [] := by
  unfold ensureSections
  split
  · simp
  · next h =>
    simpa [List.isEmpty_iff] using h

theorem ensureSections_of_empty (r : ScrapeResult) (url : String) (h : r.sections = []) :
    ensureSections r url
      = { r with sections := [placeholderSection url], errors := r.errors ++ [fallbackErr] } := by
  unfold ensureSections
  simp [h]

theorem ensureSections_of_ne (r : ScrapeResult) (url : String) (h : r.sections ≠ []) :
    ensureSections r url = r := by
  unfold ensureSections
  simp [List.isEmpty_iff, h]

/-- The pages field of the endpoint result: the initial `[url]`, merged
with the chosen tier's pages exactly when the static result was
insufficient. -/
theorem scrapeModel_pages (url : String) (ff : Option String) (be : Bool) (doc : Soup)
    (lr fr hr : TierResult) :
    (scrapeModel url ff be doc lr fr hr).pages
      = if insufficientSecs (parse_sections_from_soup doc url)
        then mergePages [url] (chosenJsResult lr fr hr).pages
        else [url] := by
  by_cases h1 : insufficientSecs (parse_sections_from_soup doc url) <;>
    simp [scrapeModel, mergeResult, h1, ensureSections_pages]

/-- C8.  `interactions.pages` of the returned result never contains
duplicates; the page merge keeps the accumulated list as a prefix
(first-seen order) and stays duplicate-free over any number of merge
steps.  (`Scraper.pages_no_duplicates`) -/
theorem pages_no_duplicates (url : String) (ff : Option String) (be : Bool) (doc : Soup)
    (lr fr hr : TierResult) :
    (scrapeModel url ff be doc lr fr hr).pages.Nodup
    ∧ (∀ (acc : List String), acc.Nodup →
        ∀ (incs : List (List String)), (incs.foldl mergePages acc).Nodup)
    ∧ (∀ (acc inc : List String), acc <+: mergePages acc inc)
    ∧ (∀ (acc inc : List String), ∀ x ∈ mergePages acc inc, x ∈ acc ∨ x ∈ inc) := by
  have hfold : ∀ (incs : List (List String)) (acc : List String), acc.Nodup →
      (incs.foldl mergePages acc).Nodup := by
    intro incs
    induction incs with
    | nil => intro acc h; exact h
    | cons i tl ih =>
      intro acc h
      exact ih (mergePages acc i) (mergePages_nodup_step i acc h)
  refine ⟨?_, fun acc h incs => hfold incs acc h, fun acc inc => mergePages_prefix inc acc,
    fun acc inc => mergePages_mem_of inc acc⟩
  rw [scrapeModel_pages]
  split
  · exact mergePages_nodup_step _ _ (List.nodup_singleton url)
  · exact List.nodup_singleton url

/-- Witness for C8 at a concrete run. -/
theorem pages_no_duplicates_witness :
    (scrapeModel "https://cex.example/" none false c3docA emptyTR emptyTR c3hardTR).pages.Nodup
    ∧ ([["a", "b"], ["b", "c"]].foldl mergePages ["a"]).Nodup :=
  ⟨(pages_no_duplicates "https://cex.example/" none false c3docA emptyTR emptyTR c3hardTR).1,
   (pages_no_duplicates "https://cex.example/" none false c3docA emptyTR emptyTR c3hardTR).2.1
     ["a"] (by decide) [["a", "b"], ["b", "c"]]⟩

/-- C1.  The controller's tier trace is always a prefix of
static-light-full-hard (so tiers run in that order, each at most once);
when the light result is insufficient or blocked the full tier runs, and
when the full result is still short of 300 characters or carries any
error the hard tier runs next.  (`Scraper.escalation_tier_order`) -/
theorem escalation_tier_order (ss : List Section) (lr fr : TierResult) :
    tiersRun ss lr fr <+: [Tier.static, Tier.light, Tier.full, Tier.hard]
    ∧ (tiersRun ss lr fr).Nodup
    ∧ (Tier.light ∈ tiersRun ss lr fr → lightEscalates lr = true →
        Tier.full ∈ tiersRun ss lr fr)
    ∧ (Tier.full ∈ tiersRun ss lr fr → fullEscalates fr = true →
        Tier.hard ∈ tiersRun ss lr fr)
    ∧ fullEscalates fr = (insufficientSecs fr.sections || !fr.errors.isEmpty) := by
  have h5 : fullEscalates fr = (insufficientSecs fr.sections || !fr.errors.isEmpty) := by
    cases hfs : fr.sections with
    | nil => simp [fullEscalates, insufficientSecs, totalTextLen, hfs]
    | cons a l => simp [fullEscalates, insufficientSecs, hfs]
  have hmain : tiersRun ss lr fr <+: [Tier.static, Tier.light, Tier.full, Tier.hard]
      ∧ (tiersRun ss lr fr).Nodup
      ∧ (Tier.light ∈ tiersRun ss lr fr → lightEscalates lr = true →
          Tier.full ∈ tiersRun ss lr fr)
      ∧ (Tier.full ∈ tiersRun ss lr fr → fullEscalates fr = true →
          Tier.hard ∈ tiersRun ss lr fr) := by
    by_cases h1 : insufficientSecs ss = true <;>
      by_cases h2 : lightEscalates lr = true <;>
      by_cases h3 : fullEscalates fr = true <;>
      simp [tiersRun, h1, h2, h3]
  exact ⟨hmain.1, hmain.2.1, hmain.2.2.1, hmain.2.2.2, h5⟩

/-- Witness for C1: empty tier results escalate all the way to the hard
tier, in order. -/
theorem escalation_tier_order_witness :
    lightEscalates emptyTR = true ∧ fullEscalates emptyTR = true
    ∧ Tier.light ∈ tiersRun [] emptyTR emptyTR
    ∧ Tier.full ∈ tiersRun [] emptyTR emptyTR
    ∧ Tier.hard ∈ tiersRun [] emptyTR emptyTR := by
  refine ⟨by decide, by decide, by decide, ?_, ?_⟩
  · exact (escalation_tier_order [] emptyTR emptyTR).2.2.1 (by decide) (by decide)
  · exact (escalation_tier_order [] emptyTR emptyTR).2.2.2.1 (by decide) (by decide)

/-- C5.  The endpoint always returns at least one section; when
extraction is otherwise empty it returns exactly the placeholder section
(with `truncated = true`) together with exactly one error of phase
`fallback`.  (`Scraper.result_always_has_section`) -/
theorem result_always_has_section (url : String) (ff : Option String) (be : Bool)
    (doc : Soup) (lr fr hr : TierResult) :
    (scrapeModel url ff be doc lr fr hr).sections ≠ []
    ∧ (parse_sections_from_soup doc url = [] →
       (chosenJsResult lr fr hr).sections = [] →
       (∀ e ∈ (chosenJsResult lr fr hr).errors, e.phase ≠ "fallback") →
       (scrapeModel url ff be doc lr fr hr).sections = [placeholderSection url]
       ∧ (placeholderSection url).truncated = true
       ∧ ((scrapeModel url ff be doc lr fr hr).errors.filter
            (fun e => e.phase = "fallback")).length = 1) := by
  constructor
  · simp only [scrapeModel]
    exact ensureSections_ne_nil _ _
  · intro h1 h2 h3
    have hins : insufficientSecs (parse_sections_from_soup doc url) = true := by
      rw [h1]; decide
    have hsecs : mergeSections (parse_sections_from_soup doc url)
        (chosenJsResult lr fr hr).sections = [] := by
      rw [h1, h2]; rfl
    have hch : (chosenJsResult lr fr hr).errors.filter (fun e => e.phase = "fallback") = [] :=
      List.filter_eq_nil_iff.mpr (by intro a ha; simpa using h3 a ha)
    simp only [scrapeModel, hins, if_true, ite_true]
    rw [ensureSections_of_empty _ _ (by simpa [mergeResult] using hsecs)]
    refine ⟨rfl, rfl, ?_⟩
    rcases ff with _ | m <;> cases be <;>
      simp [mergeResult, List.filter_append, hch, fallbackErr]

/-- Witness for C5: an empty document with failing tiers yields the
placeholder section and one fallback error. -/
theorem result_always_has_section_witness :
    (scrapeModel "https://e.com/" none true emptyDoc emptyTR emptyTR emptyTR).sections
      = [placeholderSection "https://e.com/"]
    ∧ ((scrapeModel "https://e.com/" none true emptyDoc emptyTR emptyTR emptyTR).errors.filter
        (fun e => e.phase = "fallback")).length = 1 := by
  have h := (result_always_has_section "https://e.com/" none true emptyDoc
    emptyTR emptyTR emptyTR).2 (by decide) (by decide) (by decide)
  exact ⟨h.1, h.2.2⟩

/-! ### Segmentation-engine lemmas -/

theorem head?_mem {α : Type} {l : List α} {x : α} (h : l.head? = some x) : x ∈ l := by
  cases l with
  | nil => simp at h
  | cons a tl =>
    simp only [List.head?] at h
    exact (Option.some.injEq _ _ ▸ h : a = x) ▸ List.mem_cons_self a tl

/-- Exactly one of the three things the landmark loop body can do:
skip a consumed or empty fingerprint, consume the fingerprint of a
text-free element, or append one section. -/
theorem sectionsStep_cases (url : String) (st : List Section × List String × Nat) (eln : HNode) :
    (sectionsStep url st eln = st)
    ∨ (sectionsStep url st eln = (st.1, eln.serialize :: st.2.1, st.2.2) ∧ eln.getText = "")
    ∨ (∃ sec, sectionsStep url st eln = (st.1 ++ [sec], eln.serialize :: st.2.1, st.2.2 + 1)
        ∧ sec.content.text = eln.getText ∧ eln.getText ≠ ""
        ∧ sec.id = eln.tagOf ++ "-" ++ Nat.repr st.2.2) := by
  obtain ⟨secs, used, idx⟩ := st
  by_cases h1 : eln.serialize = "" ∨ used.contains eln.serialize
  · left
    simp only [sectionsStep, h1, if_true, ite_true]
  · by_cases h2 : eln.getText = ""
    · right; left
      constructor
      · simp only [sectionsStep, h1, if_false, ite_false, h2, if_true, ite_true]
      · exact h2
    · right; right
      refine ⟨mkLandmarkSection url eln idx, ?_, rfl, h2, rfl⟩
      simp only [sectionsStep, h1, if_false, ite_false, h2, ite_false]

/-- Sections already produced keep their non-empty text through the
landmark loop, and every appended section has non-empty text. -/
theorem landmark_fold_text (url : String) :
    ∀ (cands : List HNode) (st : List Section × List String × Nat),
      (∀ s ∈ st.1, s.content.text ≠ "") →
      ∀ s ∈ (cands.foldl (sectionsStep url) st).1, s.content.text ≠ "" := by
  intro cands
  induction cands with
  | nil => intro st h; exact h
  | cons eln tl ih =>
    intro st h
    simp only [List.foldl_cons]
    apply ih
    rcases sectionsStep_cases url st eln with hc | ⟨hc, _⟩ | ⟨sec, hc, htext, hne, _⟩
    · rw [hc]; exact h
    · rw [hc]; exact h
    · rw [hc]
      intro s hs
      rcases List.mem_append.mp hs with hs | hs
      · exact h s hs
      · rw [List.mem_singleton.mp hs, htext]
        exact hne

/-- When every candidate's extracted text is empty, the landmark loop
produces no sections. -/
theorem landmark_fold_skip (url : String) :
    ∀ (cands : List HNode) (st : List Section × List String × Nat),
      (∀ e ∈ cands, e.getText = "") →
      ((cands.foldl (sectionsStep url) st).1 = st.1) := by
  intro cands
  induction cands with
  | nil => intro st _; rfl
  | cons eln tl ih =>
    intro st h
    simp only [List.foldl_cons]
    have htl : ∀ e ∈ tl, e.getText = "" := fun e he => h e (List.mem_cons_of_mem _ he)
    rcases sectionsStep_cases url st eln with hc | ⟨hc, _⟩ | ⟨sec, _, _, hne, _⟩
    · rw [hc]; exact ih st htl
    · rw [hc, ih _ htl]
    · exact absurd (h eln (List.mem_cons_self _ _)) hne

/-- Every landmark candidate is a node of the soup with a landmark
tag. -/
theorem mem_landmarkCandidates (roots : Soup) :
    ∀ e ∈ landmarkCandidates roots, e ∈ soupNodes roots ∧ e.tagOf ∈ landmark_tags := by
  intro e he
  unfold landmarkCandidates at he
  rw [List.mem_flatMap] at he
  obtain ⟨t, ht, hmem⟩ := he
  unfold soupFindAll at hmem
  rw [List.mem_filter] at hmem
  refine ⟨hmem.1, ?_⟩
  have := hmem.2
  simp only [decide_eq_true_eq] at this
  rw [this]
  exact ht

/-- Under a document with no text content every node's `get_text` is
empty. -/
theorem soupNodes_text_empty (roots : Soup)
    (hall : ∀ f ∈ roots.strings, sTrim f = "") :
    ∀ e ∈ soupNodes roots, e.getText = "" := by
  intro e he
  apply getTextOfStrings_eq_empty
  intro f hf
  exact hall f (strings_sub_forest roots e he f hf)

/-- Under a document with no text content the whole-body text is also
empty. -/
theorem bodyText_empty (roots : Soup)
    (hall : ∀ f ∈ roots.strings, sTrim f = "") : bodyText roots = "" := by
  unfold bodyText bodyStrings
  cases hsb : soupBody roots with
  | none => exact getTextOfStrings_eq_empty _ hall
  | some b =>
    apply getTextOfStrings_eq_empty
    intro f hf
    apply hall
    have hb : b ∈ soupNodes roots := by
      unfold soupBody soupFind at hsb
      have := head?_mem hsb
      unfold soupFindAll at this
      exact (List.mem_filter.mp this).1
    exact strings_sub_forest roots b hb f hf

/-- C10.  Every section the segmentation engine returns has non-empty
text, and on a document without text content the engine returns the
empty list.  (`Scraper.sections_text_nonempty`) -/
theorem sections_text_nonempty (roots : Soup) (url : String) :
    (∀ s ∈ parse_sections_from_soup roots url, s.content.text ≠ "")
    ∧ ((∀ f ∈ roots.strings, sTrim f = "") → parse_sections_from_soup roots url = []) := by
  constructor
  · intro s hs
    unfold parse_sections_from_soup at hs
    by_cases hlp : (landmarkPass roots url).isEmpty
    · simp only [hlp, if_true, ite_true] at hs
      by_cases hbt : bodyText roots ≠ ""
      · rw [if_pos hbt] at hs
        rw [List.mem_singleton.mp hs]
        exact hbt
      · rw [if_neg hbt] at hs
        simp at hs
    · simp only [hlp, if_false, ite_false] at hs
      exact landmark_fold_text url _ _ (by simp) s hs
  · intro hall
    have hcand : ∀ e ∈ landmarkCandidates roots, e.getText = "" := fun e he =>
      soupNodes_text_empty roots hall e (mem_landmarkCandidates roots e he).1
    have hlp : landmarkPass roots url = [] := landmark_fold_skip url _ _ hcand
    have hbt : bodyText roots = "" := bodyText_empty roots hall
    unfold parse_sections_from_soup
    simp [hlp, hbt]

/-- Witness for C10: the scenario page's sections all carry text, and a
text-free page parses to nothing. -/
theorem sections_text_nonempty_witness :
    ((parse_sections_from_soup c3docA "u").map (fun s => s.content.text) = ["static menu"])
    ∧ parse_sections_from_soup emptyDoc "u" = [] := by
  refine ⟨by decide, ?_⟩
  exact (sections_text_nonempty emptyDoc "u").2 (by decide)

/-- Counterexample to C2 as stated: on a landmark-free document whose
only heading sits in a `div` (text `"Heading inner"`), the engine used
by the pipeline does not emit the heading's block ancestor as a
pseudo-section; it emits the whole-body section (text
`"Heading inner outside"`) directly.
(`Scraper.segmentation_heading_tier_cex`) -/
theorem segmentation_heading_tier_cex :
    landmarkPass c2doc "u" = []
    ∧ (soupFindAll c2doc "h1").length = 1
    ∧ (parse_sections_from_soup c2doc "u").map Section.id = ["body-0"]
    ∧ (parse_sections_from_soup c2doc "u").map (fun s => s.content.text)
        = ["Heading inner outside"]
    ∧ (∀ s ∈ parse_sections_from_soup c2doc "u", s.content.text ≠ "Heading inner") := by
  refine ⟨by decide, by decide, by decide, by decide, by decide⟩

/-- C2 (amended).  When the landmark pass produced no sections the
segmentation engine emits one section covering the whole body (no
heading scan exists in the engine the pipeline imports), and its output
is non-empty whenever the body has any text.
(`Scraper.segmentation_fallback_whole_body`) -/
theorem segmentation_fallback_whole_body (roots : Soup) (url : String) :
    (landmarkPass roots url = [] →
      parse_sections_from_soup roots url
        = if bodyText roots ≠ "" then [bodyFallbackSection roots url] else [])
    ∧ (bodyText roots ≠ "" → parse_sections_from_soup roots url ≠ []) := by
  constructor
  · intro h
    unfold parse_sections_from_soup
    simp [h]
  · intro h
    unfold parse_sections_from_soup
    by_cases hlp : (landmarkPass roots url).isEmpty
    · rw [if_pos hlp, if_pos h]
      simp
    · rw [if_neg hlp]
      simpa [List.isEmpty_iff] using hlp

/-- Witness for the amended C2 at the heading-only document. -/
theorem segmentation_fallback_whole_body_witness :
    parse_sections_from_soup c2doc "u" = [bodyFallbackSection c2doc "u"]
    ∧ parse_sections_from_soup c2doc "u" ≠ [] := by
  have h := segmentation_fallback_whole_body c2doc "u"
  constructor
  · rw [h.1 (by decide), if_pos (by decide)]
  · exact h.2 (by decide)

/-- Counterexample to C3 as stated: when the short static page and the
hard tier's rendering of it both yield a `nav-0` section with different
markup, the merged result carries two sections with the same id.
(`Scraper.section_id_duplicate_after_merge_cex`) -/
theorem section_id_duplicate_after_merge_cex :
    ((scrapeModel "https://cex.example/" none false c3docA emptyTR emptyTR c3hardTR).sections.map
        Section.id = ["nav-0", "nav-0"])
    ∧ ¬ ((scrapeModel "https://cex.example/" none false c3docA emptyTR emptyTR
        c3hardTR).sections.map Section.id).Nodup := by
  refine ⟨by decide, by decide⟩

/-- The landmark tags carry no dash. -/
theorem landmark_tags_dashfree : ∀ t ∈ landmark_tags, '-' ∉ t.data := by decide

/-- The landmark loop maintains `IdInv`. -/
theorem landmark_fold_idinv (url : String) :
    ∀ (cands : List HNode) (st : List Section × List String × Nat),
      (∀ e ∈ cands, e.tagOf ∈ landmark_tags) → IdInv st →
      IdInv (cands.foldl (sectionsStep url) st) := by
  intro cands
  induction cands with
  | nil => intro st _ h; exact h
  | cons eln tl ih =>
    intro st hc hinv
    simp only [List.foldl_cons]
    apply ih _ (fun e he => hc e (List.mem_cons_of_mem _ he))
    rcases sectionsStep_cases url st eln with hcase | ⟨hcase, _⟩ | ⟨sec, hcase, _, _, hid⟩
    · rw [hcase]; exact hinv
    · rw [hcase]; exact hinv
    · rw [hcase]
      obtain ⟨hlen, hids⟩ := hinv
      constructor
      · simp [hlen]
      · intro k hk
        have hk' : k < st.1.length + 1 := by
          simpa [List.length_append] using hk
        by_cases hklt : k < st.1.length
        · obtain ⟨t, ht, hidt⟩ := hids k hklt
          refine ⟨t, ht, ?_⟩
          have hget : (st.1 ++ [sec]).get ⟨k, hk⟩ = st.1.get ⟨k, hklt⟩ := by
            simp only [List.get_eq_getElem]
            exact List.getElem_append_left hklt
          rw [hget]
          exact hidt
        · have hkeq : k = st.1.length := by omega
          refine ⟨eln.tagOf, hc eln (List.mem_cons_self _ _), ?_⟩
          subst hkeq
          have hget : (st.1 ++ [sec]).get ⟨st.1.length, hk⟩ = sec := by
            simp [List.get_eq_getElem, List.getElem_concat_length]
          rw [hget, hid, hlen]

/-- C3 (amended).  Within the output of one segmentation pass, section
ids are pairwise distinct; across merged tiers deduplication is by
`rawHtml` fingerprint only and ids may repeat.
(`Scraper.parse_sections_ids_nodup`) -/
theorem parse_sections_ids_nodup (roots : Soup) (url : String) :
    ((parse_sections_from_soup roots url).map Section.id).Nodup := by
  unfold parse_sections_from_soup
  by_cases hlp : (landmarkPass roots url).isEmpty
  · rw [if_pos hlp]
    by_cases hbt : bodyText roots ≠ ""
    · rw [if_pos hbt]; simp
    · rw [if_neg hbt]; simp
  · rw [if_neg hlp]
    have hinv : IdInv ((landmarkCandidates roots).foldl (sectionsStep url) ([], [], 0)) :=
      landmark_fold_idinv url _ _ (fun e he => (mem_landmarkCandidates roots e he).2)
        ⟨rfl, by intro k hk; simp at hk⟩
    have hids : ∀ k (hk : k < (landmarkPass roots url).length),
        ∃ t ∈ landmark_tags,
          ((landmarkPass roots url).get ⟨k, hk⟩).id = t ++ "-" ++ Nat.repr k :=
      hinv.2
    rw [List.nodup_iff_injective_get]
    rintro ⟨i, hi⟩ ⟨j, hj⟩ hij
    rw [List.length_map] at hi hj
    simp only [List.get_eq_getElem, List.getElem_map] at hij
    obtain ⟨t1, ht1, hid1⟩ := hids i hi
    obtain ⟨t2, ht2, hid2⟩ := hids j hj
    have heq : t1 ++ "-" ++ Nat.repr i = t2 ++ "-" ++ Nat.repr j := by
      rw [← hid1, ← hid2]
      simpa [List.get_eq_getElem] using hij
    exact Fin.ext (tagId_inj t1 t2 i j (landmark_tags_dashfree t1 ht1)
      (landmark_tags_dashfree t2 ht2) heq)

/-- Witness for the amended C3 at a concrete document. -/
theorem parse_sections_ids_nodup_witness :
    ((parse_sections_from_soup c9doc "https://scenario.example/").map Section.id).Nodup :=
  parse_sections_ids_nodup c9doc "https://scenario.example/"

/-- Counterexample to C4 as stated: the browser tiers' metadata
extractor takes the `title` element over the Open-Graph title and never
falls back to the Open-Graph description, unlike the static tier.
(`Scraper.extract_meta_og_title_cex`) -/
theorem extract_meta_og_title_cex :
    (extract_meta c4doc "https://e.com/x").title = "Doc Title"
    ∧ (staticMeta c4doc "https://e.com/x").title = "OG Title"
    ∧ "Doc Title" ≠ "OG Title"
    ∧ (extract_meta c4doc "https://e.com/x").description = ""
    ∧ (staticMeta c4doc "https://e.com/x").description = "OG Desc" := by
  refine ⟨by decide, by decide, by decide, by decide, by decide⟩

/-- C4 (amended).  The static tier prefers a non-empty Open-Graph title
and falls back from the name-based description to the Open-Graph one;
the browser tiers' extractor uses the `title` element and the name-based
description only; both resolve a present canonical href through
`make_absolute_url` and return missing fields as `""` (title,
description, language) or `none` (canonical) without raising.
(`Scraper.metadata_extractor_amended`) -/
theorem metadata_extractor_amended (roots : Soup) (url : String) :
    (∀ og c, soupFindAttr roots "meta" "property" "og:title" = some og →
      og.getAttr "content" = some c → c ≠ "" → (staticMeta roots url).title = c)
    ∧ (soupFindAttr roots "meta" "property" "og:title" = none →
        (staticMeta roots url).title = titleTextOf (soupFind roots "title"))
    ∧ (∀ d, soupFindAttr roots "meta" "name" "description" = some d →
        (staticMeta roots url).description = d.getAttrD "content")
    ∧ (∀ t, soupFind roots "title" = some t →
        (extract_meta roots url).title = sTrim t.textNoSep)
    ∧ (soupFind roots "title" = none → (extract_meta roots url).title = "")
    ∧ (soupFindAttr roots "meta" "name" "description" = none →
        (extract_meta roots url).description = "")
    ∧ (soupFindAttr roots "meta" "name" "description" = none →
        soupFindAttr roots "meta" "property" "og:description" = none →
        (staticMeta roots url).description = "")
    ∧ (∀ cn h, findCanonicalLink roots = some cn → cn.getAttr "href" = some h → h ≠ "" →
        (staticMeta roots url).canonical = some (make_absolute_url url h)
        ∧ (extract_meta roots url).canonical = some (make_absolute_url url h))
    ∧ (findCanonicalLink roots = none →
        (staticMeta roots url).canonical = none ∧ (extract_meta roots url).canonical = none)
    ∧ (soupFind roots "html" = none →
        (staticMeta roots url).language = "" ∧ (extract_meta roots url).language = "") := by
  refine ⟨?_, ?_, ?_, ?_, ?_, ?_, ?_, ?_, ?_, ?_⟩
  · intro og c h1 h2 h3
    simp [staticMeta, h1, h2, h3]
  · intro h1
    simp [staticMeta, h1]
  · intro d h1
    simp [staticMeta, h1]
  · intro t h1
    simp [extract_meta, h1]
  · intro h1
    simp [extract_meta, h1]
  · intro h1
    simp [extract_meta, h1]
  · intro h1 h2
    simp [staticMeta, h1, h2]
  · intro cn h h1 h2 h3
    constructor
    · simp [staticMeta, h1, h2, h3]
    · simp [extract_meta, h1, HNode.getAttrD, h2]
  · intro h1
    exact ⟨by simp [staticMeta, h1], by simp [extract_meta, h1]⟩
  · intro h1
    exact ⟨by simp [staticMeta, h1], by simp [extract_meta, h1]⟩

/-- Witness for the amended C4 at the Open-Graph document. -/
theorem metadata_extractor_amended_witness :
    (staticMeta c4doc "https://e.com/x").title = "OG Title"
    ∧ (extract_meta c4doc "https://e.com/x").title = "Doc Title"
    ∧ (staticMeta c4doc "https://e.com/x").canonical = some "https://cex.example/page"
    ∧ (extract_meta c4doc "https://e.com/x").canonical = some "https://cex.example/page" := by
  obtain ⟨hc1, hc2, hc3, hc4, hc5, hc6, hc7, hc8, hc9, hc10⟩ :=
    metadata_extractor_amended c4doc "https://e.com/x"
  refine ⟨?_, ?_, ?_, ?_⟩
  · exact hc1 (el "meta" [("property", "og:title"), ("content", "OG Title")] [])
      "OG Title" rfl rfl (by decide)
  · rw [hc4 (el "title" [] [.text "Doc Title"]) rfl]
    decide
  · rw [(hc8 (el "link" [("rel", "canonical"), ("href", "https://cex.example/page")] [])
      "https://cex.example/page" rfl rfl (by decide)).1]
    decide
  · rw [(hc8 (el "link" [("rel", "canonical"), ("href", "https://cex.example/page")] [])
      "https://cex.example/page" rfl rfl (by decide)).2]
    decide

/-- C9.  The scenario page (a `nav`, a `main` with an `h1` and 400
characters of text, a `footer`) parses to exactly three sections typed
nav, section, footer, the static result is sufficient, the controller
runs the static tier only, and the endpoint returns exactly those
sections.  (`Scraper.static_scenario_three_sections`) -/
theorem static_scenario_three_sections :
    ((parse_sections_from_soup c9doc "https://scenario.example/").map Section.type
        = ["nav", "section", "footer"])
    ∧ insufficientSecs (parse_sections_from_soup c9doc "https://scenario.example/") = false
    ∧ (∀ lr fr : TierResult,
        tiersRun (parse_sections_from_soup c9doc "https://scenario.example/") lr fr
          = [Tier.static])
    ∧ (∀ lr fr hr : TierResult,
        (scrapeModel "https://scenario.example/" none false c9doc lr fr hr).sections
          = parse_sections_from_soup c9doc "https://scenario.example/") := by
  have hins : insufficientSecs (parse_sections_from_soup c9doc "https://scenario.example/")
      = false := by decide
  have hne : parse_sections_from_soup c9doc "https://scenario.example/" ≠ [] := by decide
  refine ⟨by decide, hins, ?_, ?_⟩
  · intro lr fr
    simp [tiersRun, hins]
  · intro lr fr hr
    simp only [scrapeModel, hins, Bool.false_eq_true, if_false, ite_false]
    rw [ensureSections_of_ne _ _ hne]

/-- Witness for C9: the controller trace at concrete tier results. -/
theorem static_scenario_three_sections_witness :
    tiersRun (parse_sections_from_soup c9doc "https://scenario.example/") emptyTR emptyTR
      = [Tier.static]
    ∧ (scrapeModel "https://scenario.example/" none false c9doc emptyTR emptyTR
        emptyTR).sections
      = parse_sections_from_soup c9doc "https://scenario.example/" :=
  ⟨static_scenario_three_sections.2.2.1 emptyTR emptyTR,
   static_scenario_three_sections.2.2.2 emptyTR emptyTR emptyTR⟩

end Scraper
